import Mathlib

/-!
Shallow embedding of the submodular diversity-selection engine of the
`jina-mcp` repository (`src/utils/submodular-optimization.ts`), together with
the input validation performed by the `deduplicate_strings` tool handler.

JavaScript numbers are idealized as real numbers; `Math.sqrt` is `Real.sqrt`.
The JavaScript array used as a priority queue (re-sorted after every push with
the stable comparator `(a, b) => a[0] - b[0]`) is modelled by stable insertion
sort.  The inner `while` loop of the lazy greedy selection is written with an
explicit fuel parameter; at every call site the fuel is `2 * pq.length + 1`,
which is proved sufficient, so the fuelled function agrees with the source's
unbounded loop.
-/

namespace JinaMcp

/-- A priority-queue entry `[negGain, lastUpdated, bestIdx]` from the source:
negated marginal gain, epoch at which the gain was computed, item index. -/
abbrev Entry : Type := ℝ × ℕ × ℕ

/-- Queue ordering used by `pq.sort((a, b) => a[0] - b[0])`: ascending by the
negated-gain key. -/
def keyLE (x y : Entry) : Prop := x.1 ≤ y.1

noncomputable instance : DecidableRel keyLE :=
  fun x y => inferInstanceAs (Decidable (x.1 ≤ y.1))

instance : IsTotal Entry keyLE := ⟨fun x y => le_total x.1 y.1⟩

instance : IsTrans Entry keyLE := ⟨fun _ _ _ h h' => le_trans h h'⟩

/-- JavaScript's stable sort by the first tuple component, modelled by stable
insertion sort. -/
noncomputable def sortPQ (l : List Entry) : List Entry := List.insertionSort keyLE l

/-- The accumulated sum `Σ a[i] * b[i]` of the `cosineSimilarity` loop; with
`b := a` it is the accumulated `normA`. -/
noncomputable def dotList (a b : List ℝ) : ℝ :=
  ((List.range a.length).map fun i => a.getD i 0 * b.getD i 0).sum

/-- `cosineSimilarity` from the source: 0 on length mismatch, 0 if either norm
is zero, otherwise `dot / (sqrt normA * sqrt normB)`.  (In the division branch
the two lengths agree, so each accumulated sum may be indexed by its own
vector's length.) -/
noncomputable def cosineSimilarity (a b : List ℝ) : ℝ :=
  if a.length ≠ b.length then 0
  else if dotList a a = 0 ∨ dotList b b = 0 then 0
  else dotList a b / (Real.sqrt (dotList a a) * Real.sqrt (dotList b b))

/-- The pre-computed similarity matrix: pairwise cosine similarity clamped to
`max 0 _`, exactly as in both selection functions. -/
noncomputable def buildSimilarityMatrix (embeddings : List (List ℝ)) : List (List ℝ) :=
  (List.range embeddings.length).map fun i =>
    (List.range embeddings.length).map fun j =>
      let sim := cosineSimilarity (embeddings.getD i []) (embeddings.getD j [])
      if sim > 0 then sim else 0

/-- `computeMarginalGainDiversity` from the source: the facility-location
marginal gain of `newIdx` against `currentCoverage`. -/
noncomputable def computeMarginalGainDiversity (newIdx : ℕ) (currentCoverage : List ℝ)
    (similarityMatrix : List (List ℝ)) : ℝ :=
  let n := similarityMatrix.length
  let row := similarityMatrix.getD newIdx []
  ((List.range n).map fun i =>
    (if row.getD i 0 > currentCoverage.getD i 0 then row.getD i 0 else currentCoverage.getD i 0)
      - currentCoverage.getD i 0).sum

/-- The coverage update `if (row[i] > coverage[i]) coverage[i] = row[i]`
performed after each acceptance. -/
noncomputable def updateCoverage (coverage row : List ℝ) : List ℝ :=
  List.zipWith (fun c r => if r > c then r else c) coverage row

/-- The inner `while (pq.length > 0)` loop shared verbatim by
`lazyGreedySelection` and `lazyGreedySelectionWithSaturation`: shift the head
entry; discard it if already selected; accept it if its stored epoch equals the
current iteration; otherwise recompute its gain, push it back with the current
epoch and re-sort.  On acceptance it returns the accepted index together with
the remaining queue.  `fuel` bounds the number of loop steps; every call
supplies provably sufficient fuel. -/
noncomputable def innerLoop (sim : List (List ℝ)) (iteration : ℕ) (coverage : List ℝ)
    (remaining : List ℕ) : ℕ → List Entry → Option (ℕ × List Entry)
  | 0, _ => none
  | _ + 1, [] => none
  | fuel + 1, (_negGain, lastUpdated, bestIdx) :: rest =>
    if bestIdx ∉ remaining then innerLoop sim iteration coverage remaining fuel rest
    else if lastUpdated = iteration then some (bestIdx, rest)
    else
      innerLoop sim iteration coverage remaining fuel
        (sortPQ (rest ++ [(-(computeMarginalGainDiversity bestIdx coverage sim),
          iteration, bestIdx)]))

/-- The outer `for (iteration = 0; iteration < k; iteration++)` loop of
`lazyGreedySelection`, with `iters` iterations left and `it` the current
iteration counter. -/
noncomputable def fixedKLoop (sim : List (List ℝ)) :
    ℕ → ℕ → List Entry → List ℕ → List ℝ → List ℕ → List ℕ
  | 0, _, _, _, _, selected => selected
  | iters + 1, it, pq, rem, cov, selected =>
    match innerLoop sim it cov rem (2 * pq.length + 1) pq with
    | none => fixedKLoop sim iters (it + 1) [] rem cov selected
    | some (bestIdx, pq') =>
      fixedKLoop sim iters (it + 1) pq' (rem.erase bestIdx)
        (updateCoverage cov (sim.getD bestIdx [])) (selected ++ [bestIdx])

/-- The initial priority queue of both selection functions: one entry
`(-gain, 0, i)` per index, computed against the all-zero coverage, then
sorted ascending by key. -/
noncomputable def initPQ (sim : List (List ℝ)) (n : ℕ) : List Entry :=
  sortPQ ((List.range n).map fun i =>
    (-(computeMarginalGainDiversity i (List.replicate n (0 : ℝ)) sim), 0, i))

/-- `lazyGreedySelection(embeddings, k)` from the source: short-circuit to all
indices when `k >= n`, otherwise run the lazy greedy loop `k` times. -/
noncomputable def lazyGreedySelection (embeddings : List (List ℝ)) (k : ℕ) : List ℕ :=
  let n := embeddings.length
  if n ≤ k then List.range n
  else
    let similarityMatrix := buildSimilarityMatrix embeddings
    fixedKLoop similarityMatrix k 0 (initPQ similarityMatrix n) (List.range n)
      (List.replicate n (0 : ℝ)) []

/-- Result record of `lazyGreedySelectionWithSaturation`. -/
structure SatResult where
  selected : List ℕ
  optimalK : ℕ
  values : List ℝ

/-- The outer loop of `lazyGreedySelectionWithSaturation`: after each
acceptance it records `mean(coverage)` and, once two values exist, stops as
soon as the delta of consecutive values drops below the threshold, returning
the selections, the value trajectory and the early-stop count (if any). -/
noncomputable def satLoop (sim : List (List ℝ)) (n : ℕ) (threshold : ℝ) :
    ℕ → ℕ → List Entry → List ℕ → List ℝ → List ℕ → List ℝ →
    List ℕ × List ℝ × Option ℕ
  | 0, _, _, _, _, selected, values => (selected, values, none)
  | iters + 1, it, pq, rem, cov, selected, values =>
    match innerLoop sim it cov rem (2 * pq.length + 1) pq with
    | none => satLoop sim n threshold iters (it + 1) [] rem cov selected values
    | some (bestIdx, pq') =>
      let cov' := updateCoverage cov (sim.getD bestIdx [])
      let functionValue := cov'.sum / (n : ℝ)
      let values' := values ++ [functionValue]
      if 2 ≤ values'.length ∧
          values'.getD (values'.length - 1) 0 - values'.getD (values'.length - 2) 0 < threshold
      then (selected ++ [bestIdx], values', some values'.length)
      else satLoop sim n threshold iters (it + 1) pq' (rem.erase bestIdx) cov'
        (selected ++ [bestIdx]) values'

/-- The complete saturation run: `n` iterations of the outer loop starting
from the freshly initialized state. -/
noncomputable def satRun (embeddings : List (List ℝ)) (threshold : ℝ) :
    List ℕ × List ℝ × Option ℕ :=
  let n := embeddings.length
  let similarityMatrix := buildSimilarityMatrix embeddings
  satLoop similarityMatrix n threshold n 0 (initPQ similarityMatrix n) (List.range n)
    (List.replicate n (0 : ℝ)) [] []

/-- `lazyGreedySelectionWithSaturation(embeddings, threshold)` from the
source: run the lazy greedy loop up to `n` times with the saturation stopping
rule; `optimalK` prefers the early-stop count, else the number of collected
values, and the returned selection is the prefix of length `optimalK`.  The
source declares the threshold with the default value `1e-2`, i.e. `1 / 100`;
here the threshold is always passed explicitly. -/
noncomputable def lazyGreedySelectionWithSaturation (embeddings : List (List ℝ))
    (threshold : ℝ) : SatResult :=
  let res := satRun embeddings threshold
  let optimalK := res.2.2.getD res.2.1.length
  { selected := res.1.take optimalK, optimalK := optimalK, values := res.2.1 }

/-- Error taxonomy of the `deduplicate_strings` handler: `EmptyInput` for zero
items, `InvalidCardinality` for `k <= 0 || k > n`. -/
inductive DedupError where
  | emptyInput : DedupError
  | invalidCardinality : DedupError

/-- Fixed-K entry point as exposed by the `deduplicate_strings` handler: the
handler first rejects an empty input (`"No strings provided"`), then rejects
`k <= 0 || k > strings.length` (`"Invalid k value"`), and only then calls
`lazyGreedySelection`. -/
noncomputable def selectFixedK (embeddings : List (List ℝ)) (k : ℤ) :
    Except DedupError (List ℕ) :=
  if embeddings.length = 0 then Except.error DedupError.emptyInput
  else if k ≤ 0 ∨ (embeddings.length : ℤ) < k then Except.error DedupError.invalidCardinality
  else Except.ok (lazyGreedySelection embeddings k.toNat)

/-- The coverage vector determined by a list of already-selected indices:
fold each selected similarity row into the all-zero vector, exactly as the
acceptance branch of the loops does. -/
noncomputable def coverageOf (sim : List (List ℝ)) (n : ℕ) (sel : List ℕ) : List ℝ :=
  sel.foldl (fun cov idx => updateCoverage cov (sim.getD idx [])) (List.replicate n (0 : ℝ))

/-- Well-formedness of a similarity matrix: an `n × n` table. -/
def SimWF (sim : List (List ℝ)) (n : ℕ) : Prop :=
  sim.length = n ∧ ∀ row ∈ sim, row.length = n

/-- At step `t` of a selection `sel`, the accepted item `sel[t]` has the
largest true facility-location marginal gain against the coverage of the
prefix `sel.take t` among all not-yet-selected items. -/
noncomputable def gainMaxAt (sim : List (List ℝ)) (n : ℕ) (sel : List ℕ) (t : ℕ) : Prop :=
  ∀ j, j < n → j ∉ sel.take t →
    computeMarginalGainDiversity j (coverageOf sim n (sel.take t)) sim ≤
      computeMarginalGainDiversity (sel.getD t 0) (coverageOf sim n (sel.take t)) sim

/-- The lazy queue-based loop simulates naive greedy: every accepted item has
maximal true marginal gain at its acceptance step. -/
noncomputable def acceptedGainMaximal (embeddings : List (List ℝ)) (sel : List ℕ) : Prop :=
  ∀ t, t < sel.length →
    gainMaxAt (buildSimilarityMatrix embeddings) embeddings.length sel t

/-- Invariant tying together the loop state of both selection functions at the
start of iteration `it`: the coverage is the fold of the selected rows, the
selected indices are `it` distinct in-range indices, `rem` is their complement
in `0..n-1`, and the queue is sorted, stores only upper bounds on current
gains (exact for entries stamped with the current epoch), and contains an
entry for every remaining index. -/
structure LoopInv (sim : List (List ℝ)) (n it : ℕ) (pq : List Entry) (rem : List ℕ)
    (cov : List ℝ) (selected : List ℕ) : Prop where
  covEq : cov = coverageOf sim n selected
  covLen : cov.length = n
  selLen : selected.length = it
  selLt : ∀ x ∈ selected, x < n
  selNodup : selected.Nodup
  remEq : ∀ j, j ∈ rem ↔ j < n ∧ j ∉ selected
  remNodup : rem.Nodup
  pqSorted : List.Sorted keyLE pq
  pqEpoch : ∀ e ∈ pq, e.2.1 ≤ it
  pqUB : ∀ e ∈ pq, computeMarginalGainDiversity e.2.2 cov sim ≤ -e.1
  pqFresh : ∀ e ∈ pq, e.2.1 = it → -e.1 = computeMarginalGainDiversity e.2.2 cov sim
  remCov : ∀ j ∈ rem, ∃ e ∈ pq, e.2.2 = j
  gpSel : ∀ t, t < selected.length → gainMaxAt sim n selected t

/-! ### Basic lemmas about the arithmetic pieces -/

theorem ite_gt_eq_max (c r : ℝ) : (if r > c then r else c) = max c r := by
  rcases le_or_lt r c with h | h
  · rw [if_neg (not_lt_of_le h), max_eq_left h]
  · rw [if_pos h, max_eq_right h.le]

theorem sum_map_range (f : ℕ → ℝ) : ∀ n : ℕ,
    ((List.range n).map f).sum = ∑ i ∈ Finset.range n, f i
  | 0 => by simp
  | n + 1 => by
    rw [List.range_succ, List.map_append, List.sum_append, Finset.sum_range_succ,
      sum_map_range f n]
    simp

theorem computeMarginalGainDiversity_eq (idx : ℕ) (cov : List ℝ) (sim : List (List ℝ)) :
    computeMarginalGainDiversity idx cov sim =
      ∑ i ∈ Finset.range sim.length,
        (max (cov.getD i 0) ((sim.getD idx []).getD i 0) - cov.getD i 0) := by
  unfold computeMarginalGainDiversity
  rw [sum_map_range]
  exact Finset.sum_congr rfl fun i _ => by rw [ite_gt_eq_max]

theorem gain_nonneg (idx : ℕ) (cov : List ℝ) (sim : List (List ℝ)) :
    0 ≤ computeMarginalGainDiversity idx cov sim := by
  rw [computeMarginalGainDiversity_eq]
  exact Finset.sum_nonneg fun i _ => sub_nonneg.mpr (le_max_left _ _)

theorem gain_antitone {cov cov' : List ℝ} {sim : List (List ℝ)} (idx : ℕ)
    (h : ∀ i, i < sim.length → cov.getD i 0 ≤ cov'.getD i 0) :
    computeMarginalGainDiversity idx cov' sim ≤ computeMarginalGainDiversity idx cov sim := by
  rw [computeMarginalGainDiversity_eq, computeMarginalGainDiversity_eq]
  refine Finset.sum_le_sum fun i hi => ?_
  have hcc : cov.getD i 0 ≤ cov'.getD i 0 := h i (Finset.mem_range.mp hi)
  set r := (sim.getD idx []).getD i 0
  have h1 : max (cov'.getD i 0) r - cov'.getD i 0 = max 0 (r - cov'.getD i 0) := by
    rw [← max_sub_sub_right, sub_self]
  have h2 : max (cov.getD i 0) r - cov.getD i 0 = max 0 (r - cov.getD i 0) := by
    rw [← max_sub_sub_right, sub_self]
  rw [h1, h2]
  exact max_le_max le_rfl (sub_le_sub_left hcc r)

/-! ### Coverage update lemmas -/

theorem updateCoverage_nil_left (row : List ℝ) : updateCoverage [] row = [] := rfl

theorem updateCoverage_cons (c r : ℝ) (cov row : List ℝ) :
    updateCoverage (c :: cov) (r :: row) =
      (if r > c then r else c) :: updateCoverage cov row := rfl

theorem updateCoverage_length (cov row : List ℝ) :
    (updateCoverage cov row).length = min cov.length row.length := by
  simp [updateCoverage]

theorem updateCoverage_getD {cov row : List ℝ} {i : ℕ} (h : i < cov.length)
    (h' : i < row.length) :
    (updateCoverage cov row).getD i 0 = max (cov.getD i 0) (row.getD i 0) := by
  have hlen : i < (updateCoverage cov row).length := by
    rw [updateCoverage_length]; exact lt_min h h'
  rw [List.getD_eq_getElem _ _ hlen, List.getD_eq_getElem _ _ h, List.getD_eq_getElem _ _ h']
  simp [updateCoverage, ite_gt_eq_max]

theorem le_updateCoverage_getD {cov row : List ℝ} {i : ℕ} (h : i < cov.length)
    (h' : i < row.length) :
    cov.getD i 0 ≤ (updateCoverage cov row).getD i 0 := by
  rw [updateCoverage_getD h h']
  exact le_max_left _ _

theorem updateCoverage_mem : ∀ {cov row : List ℝ}, ∀ x ∈ updateCoverage cov row,
    ∃ c ∈ cov, ∃ r ∈ row, x = max c r
  | [], _, x, hx => by simp [updateCoverage] at hx
  | _ :: _, [], x, hx => by simp [updateCoverage] at hx
  | c :: cov, r :: row, x, hx => by
    rw [updateCoverage_cons, List.mem_cons] at hx
    rcases hx with hx | hx
    · exact ⟨c, List.mem_cons_self c cov, r, List.mem_cons_self r row,
        by rw [hx, ite_gt_eq_max]⟩
    · obtain ⟨c', hc', r', hr', hx'⟩ := updateCoverage_mem x hx
      exact ⟨c', List.mem_cons_of_mem _ hc', r', List.mem_cons_of_mem _ hr', hx'⟩

theorem updateCoverage_sum_le : ∀ {cov row : List ℝ}, cov.length ≤ row.length →
    cov.sum ≤ (updateCoverage cov row).sum
  | [], _, _ => by simp [updateCoverage]
  | c :: cov, [], h => by simp at h
  | c :: cov, r :: row, h => by
    rw [updateCoverage_cons, List.sum_cons, List.sum_cons, ite_gt_eq_max]
    have hrec : cov.sum ≤ (updateCoverage cov row).sum :=
      updateCoverage_sum_le (show cov.length ≤ row.length by simpa using h)
    exact add_le_add (le_max_left _ _) hrec

/-! ### Queue sorting lemmas -/

theorem sortPQ_perm (l : List Entry) : List.Perm (sortPQ l) l :=
  List.perm_insertionSort keyLE l

theorem sortPQ_sorted (l : List Entry) : List.Sorted keyLE (sortPQ l) :=
  List.sorted_insertionSort keyLE l

theorem sortPQ_length (l : List Entry) : (sortPQ l).length = l.length :=
  (sortPQ_perm l).length_eq

theorem sortPQ_mem {x : Entry} {l : List Entry} : x ∈ sortPQ l ↔ x ∈ l :=
  (sortPQ_perm l).mem_iff

theorem sortPQ_filter_length (p : Entry → Bool) (l : List Entry) :
    ((sortPQ l).filter p).length = (l.filter p).length :=
  ((sortPQ_perm l).filter p).length_eq

/-! ### Similarity matrix lemmas -/

theorem buildSimilarityMatrix_wf (embeddings : List (List ℝ)) :
    SimWF (buildSimilarityMatrix embeddings) embeddings.length := by
  constructor
  · simp [buildSimilarityMatrix]
  · intro row hrow
    rw [buildSimilarityMatrix, List.mem_map] at hrow
    obtain ⟨i, _, rfl⟩ := hrow
    simp

theorem dotList_eq_sum (a b : List ℝ) :
    dotList a b = ∑ i ∈ Finset.range a.length, a.getD i 0 * b.getD i 0 := by
  rw [dotList, sum_map_range]

theorem dotList_self_nonneg (a : List ℝ) : (0 : ℝ) ≤ dotList a a := by
  rw [dotList_eq_sum]
  exact Finset.sum_nonneg fun i _ => mul_self_nonneg _

theorem cosineSimilarity_le_one (a b : List ℝ) : cosineSimilarity a b ≤ 1 := by
  unfold cosineSimilarity
  split
  · exact zero_le_one
  · next hlen =>
    split
    · exact zero_le_one
    · next hz =>
      push_neg at hz
      obtain ⟨hA, hB⟩ := hz
      have hA0 : (0 : ℝ) ≤ dotList a a := dotList_self_nonneg a
      have hB0 : (0 : ℝ) ≤ dotList b b := dotList_self_nonneg b
      have hApos : (0 : ℝ) < dotList a a := lt_of_le_of_ne hA0 (Ne.symm hA)
      have hBpos : (0 : ℝ) < dotList b b := lt_of_le_of_ne hB0 (Ne.symm hB)
      have hlen' : a.length = b.length := not_ne_iff.mp hlen
      have hcs : dotList a b ^ 2 ≤ dotList a a * dotList b b := by
        rw [dotList_eq_sum, dotList_eq_sum, dotList_eq_sum, hlen']
        have h := Finset.sum_mul_sq_le_sq_mul_sq (Finset.range b.length)
          (fun i => a.getD i 0) (fun i => b.getD i 0)
        calc (∑ i ∈ Finset.range b.length, a.getD i 0 * b.getD i 0) ^ 2
            ≤ (∑ i ∈ Finset.range b.length, a.getD i 0 ^ 2) *
              ∑ i ∈ Finset.range b.length, b.getD i 0 ^ 2 := h
          _ = (∑ i ∈ Finset.range b.length, a.getD i 0 * a.getD i 0) *
              ∑ i ∈ Finset.range b.length, b.getD i 0 * b.getD i 0 := by
              congr 1 <;> exact Finset.sum_congr rfl fun i _ => sq _
      have hdle : dotList a b ≤ Real.sqrt (dotList a a) * Real.sqrt (dotList b b) := by
        calc dotList a b ≤ |dotList a b| := le_abs_self _
          _ = Real.sqrt (dotList a b ^ 2) := (Real.sqrt_sq_eq_abs _).symm
          _ ≤ Real.sqrt (dotList a a * dotList b b) := Real.sqrt_le_sqrt hcs
          _ = Real.sqrt (dotList a a) * Real.sqrt (dotList b b) := Real.sqrt_mul hA0 _
      have hden : (0 : ℝ) < Real.sqrt (dotList a a) * Real.sqrt (dotList b b) :=
        mul_pos (Real.sqrt_pos.mpr hApos) (Real.sqrt_pos.mpr hBpos)
      exact (div_le_one hden).mpr hdle

theorem buildSimilarityMatrix_entry_bounds (embeddings : List (List ℝ)) :
    ∀ row ∈ buildSimilarityMatrix embeddings, ∀ x ∈ row, 0 ≤ x ∧ x ≤ 1 := by
  intro row hrow x hx
  rw [buildSimilarityMatrix, List.mem_map] at hrow
  obtain ⟨i, _, rfl⟩ := hrow
  rw [List.mem_map] at hx
  obtain ⟨j, _, rfl⟩ := hx
  simp only
  split
  · next h => exact ⟨le_of_lt h, cosineSimilarity_le_one _ _⟩
  · exact ⟨le_rfl, zero_le_one⟩

theorem dotList_self_pos {v : List ℝ} (h : ∃ x ∈ v, x ≠ 0) : (0 : ℝ) < dotList v v := by
  obtain ⟨x, hxv, hx⟩ := h
  obtain ⟨i, hi, rfl⟩ := List.getElem_of_mem hxv
  rw [dotList_eq_sum]
  refine Finset.sum_pos' (fun j _ => mul_self_nonneg _) ⟨i, Finset.mem_range.mpr hi, ?_⟩
  rw [List.getD_eq_getElem _ _ hi]
  exact mul_self_pos.mpr hx

theorem cosineSimilarity_self {v : List ℝ} (h : ∃ x ∈ v, x ≠ 0) :
    cosineSimilarity v v = 1 := by
  have hpos : (0 : ℝ) < dotList v v := dotList_self_pos h
  unfold cosineSimilarity
  rw [if_neg (by simp), if_neg (by push_neg; exact ⟨ne_of_gt hpos, ne_of_gt hpos⟩)]
  rw [Real.mul_self_sqrt hpos.le]
  exact div_self (ne_of_gt hpos)

theorem map_range_getD {α : Type _} (f : ℕ → α) {n i : ℕ} (h : i < n) (d : α) :
    ((List.range n).map f).getD i d = f i := by
  rw [List.getD_eq_getElem _ _ (by simpa using h), List.getElem_map, List.getElem_range]

theorem buildSimilarityMatrix_getD {emb : List (List ℝ)} {i j : ℕ}
    (hi : i < emb.length) (hj : j < emb.length) :
    ((buildSimilarityMatrix emb).getD i []).getD j 0 =
      if cosineSimilarity (emb.getD i []) (emb.getD j []) > 0
      then cosineSimilarity (emb.getD i []) (emb.getD j []) else 0 := by
  rw [buildSimilarityMatrix, map_range_getD _ hi, map_range_getD _ hj]

/-! ### Claim theorems for the entry points' validation and short-circuit -/

/-- C5: for every non-empty embeddings sequence of length `n` and every
`k ≥ n`, `lazyGreedySelection` short-circuits and returns all `n` indices
`0..n-1`, each exactly once, in ascending index order (`List.range n`). -/
theorem full_selection_short_circuit (embeddings : List (List ℝ)) (k : ℕ)
    (h0 : 0 < embeddings.length) (hk : embeddings.length ≤ k) :
    lazyGreedySelection embeddings k = List.range embeddings.length := by
  rw [lazyGreedySelection]
  simp only [if_pos hk]

theorem full_selection_short_circuit_witness :
    0 < ([[(1 : ℝ), 0], [(0 : ℝ), 1]] : List (List ℝ)).length ∧
    ([[(1 : ℝ), 0], [(0 : ℝ), 1]] : List (List ℝ)).length ≤ 5 ∧
    lazyGreedySelection [[(1 : ℝ), 0], [(0 : ℝ), 1]] 5 = List.range 2 :=
  ⟨by norm_num, by norm_num,
    full_selection_short_circuit [[(1 : ℝ), 0], [(0 : ℝ), 1]] 5 (by norm_num) (by norm_num)⟩

/-- C6: for every `k`, fixed-K selection applied to an empty embeddings
sequence signals EmptyInput instead of returning a selection. -/
theorem empty_input_error (k : ℤ) :
    selectFixedK [] k = Except.error DedupError.emptyInput := rfl

/-- C4: whenever `k ≤ 0` or `k > n`, fixed-K selection signals a rejected
request rather than silently clamping `k` or returning a result; on a
non-empty input the error is InvalidCardinality (an empty input is rejected
earlier as EmptyInput). -/
theorem invalid_cardinality_error (embeddings : List (List ℝ)) (k : ℤ)
    (h : k ≤ 0 ∨ (embeddings.length : ℤ) < k) :
    (∃ e, selectFixedK embeddings k = Except.error e) ∧
    (embeddings ≠ [] →
      selectFixedK embeddings k = Except.error DedupError.invalidCardinality) := by
  by_cases hne : embeddings.length = 0
  · refine ⟨⟨DedupError.emptyInput, ?_⟩, fun hcon => ?_⟩
    · rw [selectFixedK, if_pos hne]
    · exact absurd (List.length_eq_zero.mp hne) hcon
  · have heq : selectFixedK embeddings k = Except.error DedupError.invalidCardinality := by
      rw [selectFixedK, if_neg hne, if_pos h]
    exact ⟨⟨_, heq⟩, fun _ => heq⟩

theorem invalid_cardinality_error_witness :
    selectFixedK [[(1 : ℝ), 0]] 0 = Except.error DedupError.invalidCardinality ∧
    selectFixedK [[(1 : ℝ), 0]] 2 = Except.error DedupError.invalidCardinality :=
  ⟨(invalid_cardinality_error [[(1 : ℝ), 0]] 0 (Or.inl le_rfl)).2 (by simp),
   (invalid_cardinality_error [[(1 : ℝ), 0]] 2 (Or.inr (by norm_num))).2 (by simp)⟩

/-- C9: for every vector with a nonzero entry, the cosine similarity with
itself equals 1; hence every diagonal entry of the similarity matrix built
from such vectors equals 1. -/
theorem self_similarity :
    (∀ v : List ℝ, (∃ x ∈ v, x ≠ 0) → cosineSimilarity v v = 1) ∧
    (∀ embeddings : List (List ℝ), (∀ v ∈ embeddings, ∃ x ∈ v, x ≠ 0) →
      ∀ i, i < embeddings.length →
        ((buildSimilarityMatrix embeddings).getD i []).getD i 0 = 1) := by
  constructor
  · exact fun _ h => cosineSimilarity_self h
  · intro emb hnz i hi
    have hmem : emb.getD i [] ∈ emb := by
      rw [List.getD_eq_getElem _ _ hi]
      exact List.getElem_mem hi
    have hself : cosineSimilarity (emb.getD i []) (emb.getD i []) = 1 :=
      cosineSimilarity_self (hnz _ hmem)
    rw [buildSimilarityMatrix_getD hi hi, hself, if_pos one_pos]

theorem self_similarity_witness :
    cosineSimilarity [(1 : ℝ), 0] [(1 : ℝ), 0] = 1 ∧
    ((buildSimilarityMatrix [[(1 : ℝ), 0]]).getD 0 []).getD 0 0 = 1 :=
  ⟨self_similarity.1 [(1 : ℝ), 0] ⟨1, by simp, one_ne_zero⟩,
   self_similarity.2 [[(1 : ℝ), 0]]
     (by
       intro v hv
       rw [List.mem_singleton] at hv
       subst hv
       exact ⟨1, by simp, one_ne_zero⟩)
     0 (by norm_num)⟩

/-! ### Unfolding equations for the loops -/

theorem innerLoop_zero (sim : List (List ℝ)) (it : ℕ) (cov : List ℝ) (rem : List ℕ)
    (pq : List Entry) : innerLoop sim it cov rem 0 pq = none := rfl

theorem innerLoop_nil (sim : List (List ℝ)) (it : ℕ) (cov : List ℝ) (rem : List ℕ)
    (fuel : ℕ) : innerLoop sim it cov rem (fuel + 1) [] = none := rfl

theorem innerLoop_cons (sim : List (List ℝ)) (it : ℕ) (cov : List ℝ) (rem : List ℕ)
    (fuel : ℕ) (g : ℝ) (e i : ℕ) (rest : List Entry) :
    innerLoop sim it cov rem (fuel + 1) ((g, e, i) :: rest) =
      if i ∉ rem then innerLoop sim it cov rem fuel rest
      else if e = it then some (i, rest)
      else innerLoop sim it cov rem fuel
        (sortPQ (rest ++ [(-(computeMarginalGainDiversity i cov sim), it, i)])) := rfl

theorem fixedKLoop_zero (sim : List (List ℝ)) (it : ℕ) (pq : List Entry) (rem : List ℕ)
    (cov : List ℝ) (selected : List ℕ) :
    fixedKLoop sim 0 it pq rem cov selected = selected := rfl

theorem fixedKLoop_succ_none {sim : List (List ℝ)} {it : ℕ} {pq : List Entry} {rem : List ℕ}
    {cov : List ℝ} (iters : ℕ) (selected : List ℕ)
    (h : innerLoop sim it cov rem (2 * pq.length + 1) pq = none) :
    fixedKLoop sim (iters + 1) it pq rem cov selected =
      fixedKLoop sim iters (it + 1) [] rem cov selected := by
  simp only [fixedKLoop]
  rw [h]

theorem fixedKLoop_succ_some {sim : List (List ℝ)} {it : ℕ} {pq : List Entry} {rem : List ℕ}
    {cov : List ℝ} {bestIdx : ℕ} {pq' : List Entry} (iters : ℕ) (selected : List ℕ)
    (h : innerLoop sim it cov rem (2 * pq.length + 1) pq = some (bestIdx, pq')) :
    fixedKLoop sim (iters + 1) it pq rem cov selected =
      fixedKLoop sim iters (it + 1) pq' (rem.erase bestIdx)
        (updateCoverage cov (sim.getD bestIdx [])) (selected ++ [bestIdx]) := by
  simp only [fixedKLoop]
  rw [h]

theorem satLoop_zero (sim : List (List ℝ)) (n : ℕ) (θ : ℝ) (it : ℕ) (pq : List Entry)
    (rem : List ℕ) (cov : List ℝ) (selected : List ℕ) (values : List ℝ) :
    satLoop sim n θ 0 it pq rem cov selected values = (selected, values, none) := rfl

theorem satLoop_succ_none {sim : List (List ℝ)} {n : ℕ} {θ : ℝ} {it : ℕ} {pq : List Entry}
    {rem : List ℕ} {cov : List ℝ} (iters : ℕ) (selected : List ℕ) (values : List ℝ)
    (h : innerLoop sim it cov rem (2 * pq.length + 1) pq = none) :
    satLoop sim n θ (iters + 1) it pq rem cov selected values =
      satLoop sim n θ iters (it + 1) [] rem cov selected values := by
  simp only [satLoop]
  rw [h]

theorem satLoop_succ_some {sim : List (List ℝ)} {n : ℕ} {θ : ℝ} {it : ℕ} {pq : List Entry}
    {rem : List ℕ} {cov cov' : List ℝ} {bestIdx : ℕ} {pq' : List Entry} {fv : ℝ}
    {values' : List ℝ} (iters : ℕ) (selected : List ℕ) (values : List ℝ)
    (h : innerLoop sim it cov rem (2 * pq.length + 1) pq = some (bestIdx, pq'))
    (hcov : cov' = updateCoverage cov (sim.getD bestIdx []))
    (hfv : fv = cov'.sum / (n : ℝ))
    (hv : values' = values ++ [fv]) :
    satLoop sim n θ (iters + 1) it pq rem cov selected values =
      if 2 ≤ values'.length ∧
          values'.getD (values'.length - 1) 0 - values'.getD (values'.length - 2) 0 < θ
      then (selected ++ [bestIdx], values', some values'.length)
      else satLoop sim n θ iters (it + 1) pq' (rem.erase bestIdx) cov'
        (selected ++ [bestIdx]) values' := by
  subst hcov
  subst hfv
  subst hv
  simp only [satLoop]
  rw [h]

/-! ### Coverage-of-a-selection lemmas -/

theorem coverageOf_nil (sim : List (List ℝ)) (n : ℕ) :
    coverageOf sim n [] = List.replicate n (0 : ℝ) := rfl

theorem coverageOf_concat (sim : List (List ℝ)) (n : ℕ) (sel : List ℕ) (idx : ℕ) :
    coverageOf sim n (sel ++ [idx]) =
      updateCoverage (coverageOf sim n sel) (sim.getD idx []) := by
  rw [coverageOf, coverageOf, List.foldl_concat]

theorem coverageOf_bounds {sim : List (List ℝ)}
    (hb : ∀ row ∈ sim, ∀ x ∈ row, 0 ≤ x ∧ x ≤ 1) (n : ℕ) (sel : List ℕ) :
    ∀ x ∈ coverageOf sim n sel, 0 ≤ x ∧ x ≤ 1 := by
  induction sel using List.reverseRecOn with
  | nil =>
    intro x hx
    rw [coverageOf_nil] at hx
    rw [List.eq_of_mem_replicate hx]
    exact ⟨le_rfl, zero_le_one⟩
  | append_singleton sel idx ih =>
    intro x hx
    rw [coverageOf_concat] at hx
    obtain ⟨c, hc, r, hr, rfl⟩ := updateCoverage_mem x hx
    have hcb := ih c hc
    have hrb : 0 ≤ r ∧ r ≤ 1 := by
      by_cases hidx : idx < sim.length
      · have hrow : sim.getD idx [] ∈ sim := by
          rw [List.getD_eq_getElem _ _ hidx]
          exact List.getElem_mem hidx
        exact hb _ hrow r hr
      · rw [List.getD_eq_default _ _ (le_of_not_lt hidx)] at hr
        exact absurd hr (List.not_mem_nil r)
    exact ⟨le_max_of_le_left hcb.1, max_le hcb.2 hrb.2⟩

theorem innerLoop_some_mem {sim : List (List ℝ)} {it : ℕ} {cov : List ℝ} {rem : List ℕ} :
    ∀ {fuel : ℕ} {pq : List Entry} {idx : ℕ} {pq' : List Entry},
    innerLoop sim it cov rem fuel pq = some (idx, pq') → idx ∈ rem := by
  intro fuel
  induction fuel with
  | zero =>
    intro pq idx pq' h
    rw [innerLoop_zero] at h
    exact absurd h (by simp)
  | succ fuel ih =>
    intro pq idx pq' h
    match pq with
    | [] =>
      rw [innerLoop_nil] at h
      exact absurd h (by simp)
    | (g, e, i) :: rest =>
      rw [innerLoop_cons] at h
      by_cases hmem : i ∈ rem
      · rw [if_neg (not_not_intro hmem)] at h
        by_cases he : e = it
        · rw [if_pos he] at h
          obtain ⟨rfl, rfl⟩ : i = idx ∧ rest = pq' := by
            constructor <;> [exact congrArg (·.1) (Option.some.inj h);
              exact congrArg (·.2) (Option.some.inj h)]
          exact hmem
        · rw [if_neg he] at h
          exact ih h
      · rw [if_pos hmem] at h
        exact ih h

/-! ### Light inductions on `satLoop` for bounds and monotonicity -/

theorem satLoop_values_bounds {sim : List (List ℝ)} {n : ℕ} {θ : ℝ}
    (hb : ∀ row ∈ sim, ∀ x ∈ row, 0 ≤ x ∧ x ≤ 1)
    (hw : ∀ row ∈ sim, row.length = n) :
    ∀ (iters : ℕ) (it : ℕ) (pq : List Entry) (rem : List ℕ) (cov : List ℝ)
      (selected : List ℕ) (values : List ℝ),
    cov.length = n →
    (∀ x ∈ cov, 0 ≤ x ∧ x ≤ 1) →
    (∀ x ∈ values, 0 ≤ x ∧ x ≤ 1) →
    (∀ j ∈ rem, j < sim.length) →
    ∀ x ∈ (satLoop sim n θ iters it pq rem cov selected values).2.1, 0 ≤ x ∧ x ≤ 1 := by
  intro iters
  induction iters with
  | zero =>
    intro it pq rem cov selected values _ _ hvals _ x hx
    rw [satLoop_zero] at hx
    exact hvals x hx
  | succ iters ih =>
    intro it pq rem cov selected values hcovlen hcov hvals hrem
    cases hres : innerLoop sim it cov rem (2 * pq.length + 1) pq with
    | none =>
      rw [satLoop_succ_none iters selected values hres]
      exact ih (it + 1) [] rem cov selected values hcovlen hcov hvals hrem
    | some p =>
      obtain ⟨bestIdx, pq'⟩ := p
      have hidx : bestIdx < sim.length := hrem _ (innerLoop_some_mem hres)
      have hrow : sim.getD bestIdx [] ∈ sim := by
        rw [List.getD_eq_getElem _ _ hidx]
        exact List.getElem_mem hidx
      have hrowlen : (sim.getD bestIdx []).length = n := hw _ hrow
      have hcov' : ∀ x ∈ updateCoverage cov (sim.getD bestIdx []), 0 ≤ x ∧ x ≤ 1 := by
        intro x hx
        obtain ⟨c, hc, r, hr, rfl⟩ := updateCoverage_mem x hx
        exact ⟨le_max_of_le_left (hcov c hc).1, max_le (hcov c hc).2 (hb _ hrow r hr).2⟩
      have hcovlen' : (updateCoverage cov (sim.getD bestIdx [])).length = n := by
        rw [updateCoverage_length, hcovlen, hrowlen, min_self]
      have hfv : 0 ≤ (updateCoverage cov (sim.getD bestIdx [])).sum / (n : ℝ) ∧
          (updateCoverage cov (sim.getD bestIdx [])).sum / (n : ℝ) ≤ 1 := by
        have hsum0 : 0 ≤ (updateCoverage cov (sim.getD bestIdx [])).sum :=
          List.sum_nonneg fun x hx => (hcov' x hx).1
        have hsum1 : (updateCoverage cov (sim.getD bestIdx [])).sum ≤ (n : ℝ) := by
          calc (updateCoverage cov (sim.getD bestIdx [])).sum
              ≤ (updateCoverage cov (sim.getD bestIdx [])).length • (1 : ℝ) :=
                List.sum_le_card_nsmul _ 1 fun x hx => (hcov' x hx).2
            _ = (n : ℝ) := by rw [hcovlen']; simp
        rcases Nat.eq_zero_or_pos n with hn | hn
        · subst hn
          simp
        · have hnpos : (0 : ℝ) < n := by exact_mod_cast hn
          exact ⟨div_nonneg hsum0 hnpos.le, (div_le_one hnpos).mpr hsum1⟩
      have hvals' : ∀ x ∈ values ++ [(updateCoverage cov (sim.getD bestIdx [])).sum / (n : ℝ)],
          0 ≤ x ∧ x ≤ 1 := by
        intro x hx
        rw [List.mem_append, List.mem_singleton] at hx
        rcases hx with hx | rfl
        · exact hvals x hx
        · exact hfv
      rw [satLoop_succ_some iters selected values hres rfl rfl rfl]
      split
      · intro x hx
        exact hvals' x hx
      · exact ih (it + 1) pq' (rem.erase bestIdx) _ _ _ hcovlen' hcov' hvals'
          fun j hj => hrem j (List.mem_of_mem_erase hj)

theorem satLoop_values_chain {sim : List (List ℝ)} {n : ℕ} {θ : ℝ}
    (hw : ∀ row ∈ sim, row.length = n) :
    ∀ (iters : ℕ) (it : ℕ) (pq : List Entry) (rem : List ℕ) (cov : List ℝ)
      (selected : List ℕ) (values : List ℝ),
    cov.length = n →
    (∀ j ∈ rem, j < sim.length) →
    List.Chain' (· ≤ ·) values →
    (values = [] ∨ values.getLast? = some (cov.sum / (n : ℝ))) →
    List.Chain' (· ≤ ·) (satLoop sim n θ iters it pq rem cov selected values).2.1 := by
  intro iters
  induction iters with
  | zero =>
    intro it pq rem cov selected values _ _ hchain _
    rw [satLoop_zero]
    exact hchain
  | succ iters ih =>
    intro it pq rem cov selected values hcovlen hrem hchain hlast
    cases hres : innerLoop sim it cov rem (2 * pq.length + 1) pq with
    | none =>
      rw [satLoop_succ_none iters selected values hres]
      exact ih (it + 1) [] rem cov selected values hcovlen hrem hchain hlast
    | some p =>
      obtain ⟨bestIdx, pq'⟩ := p
      have hidx : bestIdx < sim.length := hrem _ (innerLoop_some_mem hres)
      have hrow : sim.getD bestIdx [] ∈ sim := by
        rw [List.getD_eq_getElem _ _ hidx]
        exact List.getElem_mem hidx
      have hrowlen : (sim.getD bestIdx []).length = n := hw _ hrow
      have hcovlen' : (updateCoverage cov (sim.getD bestIdx [])).length = n := by
        rw [updateCoverage_length, hcovlen, hrowlen, min_self]
      have hsumle : cov.sum ≤ (updateCoverage cov (sim.getD bestIdx [])).sum :=
        updateCoverage_sum_le (by rw [hcovlen, hrowlen])
      have hfvle : cov.sum / (n : ℝ) ≤
          (updateCoverage cov (sim.getD bestIdx [])).sum / (n : ℝ) := by
        rcases Nat.eq_zero_or_pos n with hn | hn
        · subst hn
          simp
        · have hnpos : (0 : ℝ) < n := by exact_mod_cast hn
          exact (div_le_div_iff_of_pos_right hnpos).mpr hsumle
      have hchain' : List.Chain' (· ≤ ·)
          (values ++ [(updateCoverage cov (sim.getD bestIdx [])).sum / (n : ℝ)]) := by
        rw [List.chain'_append]
        refine ⟨hchain, List.chain'_singleton _, ?_⟩
        intro x hx y hy
        rw [List.head?_cons, Option.mem_def, Option.some.injEq] at hy
        subst hy
        rcases hlast with hnil | hlast
        · subst hnil
          simp at hx
        · rw [hlast, Option.mem_def, Option.some.injEq] at hx
          subst hx
          exact hfvle
      have hlast' : values ++ [(updateCoverage cov (sim.getD bestIdx [])).sum / (n : ℝ)] = []
          ∨ (values ++ [(updateCoverage cov (sim.getD bestIdx [])).sum / (n : ℝ)]).getLast? =
            some ((updateCoverage cov (sim.getD bestIdx [])).sum / (n : ℝ)) := by
        right
        rw [List.getLast?_concat]
      rw [satLoop_succ_some iters selected values hres rfl rfl rfl]
      split
      · exact hchain'
      · exact ih (it + 1) pq' (rem.erase bestIdx) _ _ _ hcovlen'
          (fun j hj => hrem j (List.mem_of_mem_erase hj)) hchain' hlast'

theorem satRun_eq (emb : List (List ℝ)) (θ : ℝ) :
    satRun emb θ = satLoop (buildSimilarityMatrix emb) emb.length θ emb.length 0
      (initPQ (buildSimilarityMatrix emb) emb.length) (List.range emb.length)
      (List.replicate emb.length (0 : ℝ)) [] [] := rfl

theorem satValues_eq (emb : List (List ℝ)) (θ : ℝ) :
    (lazyGreedySelectionWithSaturation emb θ).values = (satRun emb θ).2.1 := rfl

/-- C8: after each acceptance the coverage vector is elementwise
non-decreasing (the update is a pointwise maximum, in both selection
functions), and consequently the objective trajectory returned by
`lazyGreedySelectionWithSaturation` is non-decreasing. -/
theorem monotone_coverage (cov row : List ℝ) (h : cov.length ≤ row.length) :
    (∀ i, i < cov.length → cov.getD i 0 ≤ (updateCoverage cov row).getD i 0) ∧
    ∀ (embeddings : List (List ℝ)) (θ : ℝ),
      List.Chain' (· ≤ ·) (lazyGreedySelectionWithSaturation embeddings θ).values := by
  constructor
  · intro i hi
    exact le_updateCoverage_getD hi (lt_of_lt_of_le hi h)
  · intro emb θ
    have hwf := buildSimilarityMatrix_wf emb
    rw [satValues_eq, satRun_eq]
    refine satLoop_values_chain hwf.2 _ _ _ _ _ _ _ (by simp) ?_ List.chain'_nil (Or.inl rfl)
    intro j hj
    rw [hwf.1]
    exact List.mem_range.mp hj

/-- C10: every entry of the clamped similarity matrix lies in [0,1] (clamping
below, Cauchy-Schwarz above), every coverage vector reachable from a
selection has entries in [0,1], and therefore every value of the objective
trajectory returned by `lazyGreedySelectionWithSaturation` lies in [0,1]. -/
theorem similarity_and_trajectory_bounds (embeddings : List (List ℝ)) :
    (∀ row ∈ buildSimilarityMatrix embeddings, ∀ x ∈ row, 0 ≤ x ∧ x ≤ 1) ∧
    (∀ sel : List ℕ,
      ∀ x ∈ coverageOf (buildSimilarityMatrix embeddings) embeddings.length sel,
        0 ≤ x ∧ x ≤ 1) ∧
    ∀ θ : ℝ, ∀ x ∈ (lazyGreedySelectionWithSaturation embeddings θ).values,
      0 ≤ x ∧ x ≤ 1 := by
  refine ⟨buildSimilarityMatrix_entry_bounds embeddings,
    fun sel => coverageOf_bounds (buildSimilarityMatrix_entry_bounds embeddings) _ sel, ?_⟩
  intro θ
  have hwf := buildSimilarityMatrix_wf embeddings
  rw [satValues_eq, satRun_eq]
  refine satLoop_values_bounds (buildSimilarityMatrix_entry_bounds embeddings) hwf.2
    _ _ _ _ _ _ _ (by simp) ?_ (by simp) ?_
  · intro x hx
    rw [List.eq_of_mem_replicate hx]
    exact ⟨le_rfl, zero_le_one⟩
  · intro j hj
    rw [hwf.1]
    exact List.mem_range.mp hj

/-! ### Specification of the inner lazy-greedy loop -/

theorem innerLoop_spec (sim : List (List ℝ)) (it : ℕ) (cov : List ℝ) (rem : List ℕ) :
    ∀ (fuel : ℕ) (pq : List Entry),
    pq.length + (pq.filter fun e => e.2.1 ≠ it).length ≤ fuel →
    List.Sorted keyLE pq →
    (∀ e ∈ pq, e.2.1 ≤ it) →
    (∀ e ∈ pq, computeMarginalGainDiversity e.2.2 cov sim ≤ -e.1) →
    (∀ e ∈ pq, e.2.1 = it → -e.1 = computeMarginalGainDiversity e.2.2 cov sim) →
    (∀ j ∈ rem, ∃ e ∈ pq, e.2.2 = j) →
    rem ≠ [] →
    ∃ idx pq',
      innerLoop sim it cov rem fuel pq = some (idx, pq') ∧
      idx ∈ rem ∧
      (∀ j ∈ rem, computeMarginalGainDiversity j cov sim ≤
        computeMarginalGainDiversity idx cov sim) ∧
      List.Sorted keyLE pq' ∧
      (∀ e ∈ pq', e.2.1 ≤ it) ∧
      (∀ e ∈ pq', computeMarginalGainDiversity e.2.2 cov sim ≤ -e.1) ∧
      (∀ j ∈ rem, j ≠ idx → ∃ e ∈ pq', e.2.2 = j) := by
  intro fuel
  induction fuel with
  | zero =>
    intro pq hfuel _ _ _ _ hremCov hrem
    obtain ⟨j, hj⟩ := List.exists_mem_of_ne_nil rem hrem
    have hpq : pq = [] := List.length_eq_zero.mp (Nat.le_zero.mp
      (le_trans (Nat.le_add_right _ _) hfuel))
    obtain ⟨e', he', _⟩ := hremCov j hj
    rw [hpq] at he'
    exact absurd he' (List.not_mem_nil e')
  | succ fuel ih =>
    intro pq hfuel hsort hep hub hfr hremCov hrem
    rcases pq with _ | ⟨⟨g, e, i⟩, rest⟩
    · obtain ⟨j, hj⟩ := List.exists_mem_of_ne_nil rem hrem
      obtain ⟨e', he', _⟩ := hremCov j hj
      exact absurd he' (List.not_mem_nil e')
    · have hhead : ∀ y ∈ rest, keyLE (g, e, i) y := (List.sorted_cons.mp hsort).1
      have hrest_sorted : List.Sorted keyLE rest := (List.sorted_cons.mp hsort).2
      by_cases hmem : i ∈ rem
      · by_cases he : e = it
        · -- accept: the head entry is fresh and remaining
          refine ⟨i, rest, ?_, hmem, ?_, hrest_sorted, ?_, ?_, ?_⟩
          · rw [innerLoop_cons, if_neg (not_not_intro hmem), if_pos he]
          · -- the accepted gain dominates every remaining gain
            intro j hj
            have hgi : -g = computeMarginalGainDiversity i cov sim :=
              hfr (g, e, i) (List.mem_cons_self _ _) he
            obtain ⟨e', he', hje⟩ := hremCov j hj
            rcases List.mem_cons.mp he' with rfl | he'
            · simp only at hje
              rw [← hje, ← hgi]
            · have h1 : computeMarginalGainDiversity j cov sim ≤ -e'.1 := by
                rw [← hje]
                exact hub e' (List.mem_cons_of_mem _ he')
              have h2 : g ≤ e'.1 := hhead e' he'
              calc computeMarginalGainDiversity j cov sim ≤ -e'.1 := h1
                _ ≤ -g := neg_le_neg h2
                _ = computeMarginalGainDiversity i cov sim := hgi
          · exact fun e' he' => hep e' (List.mem_cons_of_mem _ he')
          · exact fun e' he' => hub e' (List.mem_cons_of_mem _ he')
          · intro j hj hji
            obtain ⟨e', he', hje⟩ := hremCov j hj
            rcases List.mem_cons.mp he' with rfl | he'
            · simp only at hje
              exact absurd hje.symm hji
            · exact ⟨e', he', hje⟩
        · -- stale: recompute, re-push with the current epoch, re-sort
          have hstep : innerLoop sim it cov rem (fuel + 1) ((g, e, i) :: rest) =
              innerLoop sim it cov rem fuel
                (sortPQ (rest ++ [(-(computeMarginalGainDiversity i cov sim), it, i)])) := by
            rw [innerLoop_cons, if_neg (not_not_intro hmem), if_neg he]
          set x : Entry := (-(computeMarginalGainDiversity i cov sim), it, i) with hx
          have hmemx : ∀ e' ∈ sortPQ (rest ++ [x]), e' ∈ rest ∨ e' = x := by
            intro e' he'
            rcases List.mem_append.mp (sortPQ_mem.mp he') with h | h
            · exact Or.inl h
            · exact Or.inr (List.mem_singleton.mp h)
          have hfuel' : (sortPQ (rest ++ [x])).length +
              ((sortPQ (rest ++ [x])).filter fun e' => e'.2.1 ≠ it).length ≤ fuel := by
            rw [sortPQ_length, List.length_append, sortPQ_filter_length,
              List.filter_append]
            have hxfilter : ([x].filter fun e' => e'.2.1 ≠ it) = [] := by
              simp [hx]
            rw [hxfilter, List.append_nil]
            have hcons : ((((g, e, i) : Entry) :: rest).filter
                fun e' => e'.2.1 ≠ it).length = (rest.filter fun e' => e'.2.1 ≠ it).length + 1 := by
              rw [List.filter_cons]
              simp [he]
            rw [List.length_cons, hcons] at hfuel
            simp only [List.length_singleton]
            omega
          obtain ⟨idx, pq', hres, hi1, hi2, hi3, hi4, hi5, hi6⟩ :=
            ih (sortPQ (rest ++ [x])) hfuel' (sortPQ_sorted _)
              (by
                intro e' he'
                rcases hmemx e' he' with h | rfl
                · exact hep e' (List.mem_cons_of_mem _ h)
                · exact le_rfl)
              (by
                intro e' he'
                rcases hmemx e' he' with h | rfl
                · exact hub e' (List.mem_cons_of_mem _ h)
                · rw [hx]
                  simp only [neg_neg]
                  exact le_rfl)
              (by
                intro e' he' _
                rcases hmemx e' he' with h | rfl
                · exact hfr e' (List.mem_cons_of_mem _ h) (by assumption)
                · rw [hx]
                  simp only [neg_neg])
              (by
                intro j hj
                obtain ⟨e', he', hje⟩ := hremCov j hj
                rcases List.mem_cons.mp he' with rfl | he'
                · refine ⟨x, ?_, by simp only at hje; rw [hx]; exact hje⟩
                  exact sortPQ_mem.mpr (List.mem_append_right _ (List.mem_singleton_self x))
                · exact ⟨e', sortPQ_mem.mpr (List.mem_append_left _ he'), hje⟩)
              hrem
          exact ⟨idx, pq', by rw [hstep]; exact hres, hi1, hi2, hi3, hi4, hi5, hi6⟩
      · -- discard: the head entry's index was already selected
        have hstep : innerLoop sim it cov rem (fuel + 1) ((g, e, i) :: rest) =
            innerLoop sim it cov rem fuel rest := by
          rw [innerLoop_cons, if_pos hmem]
        have hfuel' : rest.length + (rest.filter fun e' => e'.2.1 ≠ it).length ≤ fuel := by
          have hcons : ((((g, e, i) : Entry) :: rest).filter fun e' => e'.2.1 ≠ it).length =
              (rest.filter fun e' => e'.2.1 ≠ it).length ∨
              ((((g, e, i) : Entry) :: rest).filter fun e' => e'.2.1 ≠ it).length =
              (rest.filter fun e' => e'.2.1 ≠ it).length + 1 := by
            rw [List.filter_cons]
            split
            · right
              simp
            · left
              rfl
          rw [List.length_cons] at hfuel
          rcases hcons with hcons | hcons <;> rw [hcons] at hfuel <;> omega
        obtain ⟨idx, pq', hres, hi1, hi2, hi3, hi4, hi5, hi6⟩ :=
          ih rest hfuel' hrest_sorted
            (fun e' he' => hep e' (List.mem_cons_of_mem _ he'))
            (fun e' he' => hub e' (List.mem_cons_of_mem _ he'))
            (fun e' he' h => hfr e' (List.mem_cons_of_mem _ he') h)
            (by
              intro j hj
              obtain ⟨e', he', hje⟩ := hremCov j hj
              rcases List.mem_cons.mp he' with rfl | he'
              · simp only at hje
                rw [hje] at hmem
                exact absurd hj hmem
              · exact ⟨e', he', hje⟩)
            hrem
        exact ⟨idx, pq', by rw [hstep]; exact hres, hi1, hi2, hi3, hi4, hi5, hi6⟩

/-! ### Preservation of the loop invariant across one outer iteration -/

theorem take_append_of_le {α : Type _} {l : List α} (l' : List α) {t : ℕ} (h : t ≤ l.length) :
    (l ++ l').take t = l.take t := by
  rw [List.take_append_eq_append_take, Nat.sub_eq_zero_of_le h, List.take_zero,
    List.append_nil]

theorem gainMaxAt_append {sim : List (List ℝ)} {n : ℕ} {sel : List ℕ} {idx : ℕ} {t : ℕ}
    (h : t < sel.length) (hgp : gainMaxAt sim n sel t) :
    gainMaxAt sim n (sel ++ [idx]) t := by
  intro j hj hjt
  have htake : (sel ++ [idx]).take t = sel.take t := take_append_of_le _ h.le
  have hgetD : (sel ++ [idx]).getD t 0 = sel.getD t 0 := List.getD_append _ _ _ _ h
  rw [htake] at hjt
  rw [htake, hgetD]
  exact hgp j hj hjt

theorem gainMaxAt_last {sim : List (List ℝ)} {n : ℕ} {sel : List ℕ} {idx : ℕ}
    (h : ∀ j, j < n → j ∉ sel →
      computeMarginalGainDiversity j (coverageOf sim n sel) sim ≤
        computeMarginalGainDiversity idx (coverageOf sim n sel) sim) :
    gainMaxAt sim n (sel ++ [idx]) sel.length := by
  intro j hj hjt
  have htake : (sel ++ [idx]).take sel.length = sel := by
    rw [take_append_of_le _ le_rfl, List.take_length]
  have hgetD : (sel ++ [idx]).getD sel.length 0 = idx := by
    rw [List.getD_append_right _ _ _ _ le_rfl, Nat.sub_self]
    rfl
  rw [htake] at hjt
  rw [htake, hgetD]
  exact h j hj hjt

theorem loopInv_step {sim : List (List ℝ)} {n it : ℕ} {pq : List Entry} {rem : List ℕ}
    {cov : List ℝ} {selected : List ℕ} (hwf : SimWF sim n) (hit : it < n)
    (inv : LoopInv sim n it pq rem cov selected) :
    ∃ idx pq',
      innerLoop sim it cov rem (2 * pq.length + 1) pq = some (idx, pq') ∧
      idx ∈ rem ∧
      LoopInv sim n (it + 1) pq' (rem.erase idx)
        (updateCoverage cov (sim.getD idx [])) (selected ++ [idx]) := by
  have hrem_ne : rem ≠ [] := by
    obtain ⟨j, hjn, hjsel⟩ : ∃ j, j < n ∧ j ∉ selected := by
      by_contra hcon
      push_neg at hcon
      have h1 : Finset.range n ⊆ selected.toFinset := by
        intro j hj
        rw [List.mem_toFinset]
        exact hcon j (Finset.mem_range.mp hj)
      have h2 := Finset.card_le_card h1
      rw [Finset.card_range, List.toFinset_card_of_nodup inv.selNodup, inv.selLen] at h2
      omega
    intro hnil
    have hj := (inv.remEq j).mpr ⟨hjn, hjsel⟩
    rw [hnil] at hj
    exact absurd hj (List.not_mem_nil j)
  have hfuel : pq.length + (pq.filter fun e => e.2.1 ≠ it).length ≤ 2 * pq.length + 1 := by
    have := List.length_filter_le (fun e => e.2.1 ≠ it) pq
    omega
  obtain ⟨idx, pq', hres, hmem, hmax, hsort', hep', hub', hcov'⟩ :=
    innerLoop_spec sim it cov rem (2 * pq.length + 1) pq hfuel inv.pqSorted inv.pqEpoch
      inv.pqUB inv.pqFresh inv.remCov hrem_ne
  have hidxn : idx < n := ((inv.remEq idx).mp hmem).1
  have hidxsel : idx ∉ selected := ((inv.remEq idx).mp hmem).2
  have hrowlen : (sim.getD idx []).length = n := by
    have hidxsim : idx < sim.length := by
      rw [hwf.1]
      exact hidxn
    have hrow : sim.getD idx [] ∈ sim := by
      rw [List.getD_eq_getElem _ _ hidxsim]
      exact List.getElem_mem hidxsim
    exact hwf.2 _ hrow
  have hcovlen' : (updateCoverage cov (sim.getD idx [])).length = n := by
    rw [updateCoverage_length, inv.covLen, hrowlen, min_self]
  have hptwise : ∀ i, i < sim.length →
      cov.getD i 0 ≤ (updateCoverage cov (sim.getD idx [])).getD i 0 := by
    intro i hi
    rw [hwf.1] at hi
    exact le_updateCoverage_getD (by rw [inv.covLen]; exact hi) (by rw [hrowlen]; exact hi)
  refine ⟨idx, pq', hres, hmem, ?_, hcovlen', ?_, ?_, ?_, ?_, inv.remNodup.erase idx,
    hsort', ?_, ?_, ?_, ?_, ?_⟩
  · rw [coverageOf_concat, ← inv.covEq]
  · rw [List.length_append, inv.selLen]
    rfl
  · intro x hx
    rcases List.mem_append.mp hx with hx | hx
    · exact inv.selLt x hx
    · rw [List.mem_singleton.mp hx]
      exact hidxn
  · simp [List.nodup_append, inv.selNodup, hidxsel]
  · intro j
    rw [inv.remNodup.mem_erase_iff, inv.remEq j, List.mem_append, List.mem_singleton]
    constructor
    · rintro ⟨hji, hjn, hjsel⟩
      exact ⟨hjn, by rintro (h | h) <;> [exact hjsel h; exact hji h]⟩
    · rintro ⟨hjn, hj⟩
      push_neg at hj
      exact ⟨hj.2, hjn, hj.1⟩
  · exact fun e he => le_trans (hep' e he) (Nat.le_succ it)
  · intro e he
    exact le_trans (gain_antitone e.2.2 hptwise) (hub' e he)
  · intro e he hfr
    have := hep' e he
    omega
  · intro j hj
    rw [inv.remNodup.mem_erase_iff] at hj
    exact hcov' j hj.2 hj.1
  · intro t ht
    rw [List.length_append, List.length_singleton] at ht
    rcases Nat.lt_succ_iff_lt_or_eq.mp ht with ht | ht
    · exact gainMaxAt_append ht (inv.gpSel t ht)
    · subst ht
      refine gainMaxAt_last ?_
      intro j hj hjsel
      have hjrem : j ∈ rem := (inv.remEq j).mpr ⟨hj, hjsel⟩
      have := hmax j hjrem
      rw [inv.covEq] at this
      exact this

theorem loopInv_init (sim : List (List ℝ)) (n : ℕ) :
    LoopInv sim n 0 (initPQ sim n) (List.range n) (List.replicate n (0 : ℝ)) [] := by
  have hmem : ∀ e ∈ initPQ sim n, ∃ i, i < n ∧
      e = (-(computeMarginalGainDiversity i (List.replicate n (0 : ℝ)) sim), 0, i) := by
    intro e he
    rw [initPQ, sortPQ_mem, List.mem_map] at he
    obtain ⟨i, hi, rfl⟩ := he
    exact ⟨i, List.mem_range.mp hi, rfl⟩
  refine ⟨(coverageOf_nil sim n).symm, List.length_replicate n 0, rfl, ?_, List.nodup_nil,
    ?_, List.nodup_range n, ?_, ?_, ?_, ?_, ?_, ?_⟩
  · intro x hx
    exact absurd hx (List.not_mem_nil x)
  · intro j
    simp [List.mem_range]
  · rw [initPQ]
    exact sortPQ_sorted _
  · intro e he
    obtain ⟨i, _, rfl⟩ := hmem e he
    exact le_rfl
  · intro e he
    obtain ⟨i, _, rfl⟩ := hmem e he
    simp only [neg_neg]
    exact le_rfl
  · intro e he _
    obtain ⟨i, _, rfl⟩ := hmem e he
    simp only [neg_neg]
  · intro j hj
    refine ⟨(-(computeMarginalGainDiversity j (List.replicate n (0 : ℝ)) sim), 0, j), ?_, rfl⟩
    rw [initPQ, sortPQ_mem, List.mem_map]
    exact ⟨j, hj, rfl⟩
  · intro t ht
    exact absurd ht (by simp)

/-! ### The fixed-K outer loop -/

theorem fixedKLoop_spec {sim : List (List ℝ)} {n : ℕ} (hwf : SimWF sim n) :
    ∀ (iters it : ℕ) (pq : List Entry) (rem : List ℕ) (cov : List ℝ) (selected : List ℕ),
    it + iters ≤ n →
    LoopInv sim n it pq rem cov selected →
    (fixedKLoop sim iters it pq rem cov selected).length = selected.length + iters ∧
    (∀ x ∈ fixedKLoop sim iters it pq rem cov selected, x < n) ∧
    (fixedKLoop sim iters it pq rem cov selected).Nodup ∧
    (∀ t, t < (fixedKLoop sim iters it pq rem cov selected).length →
      gainMaxAt sim n (fixedKLoop sim iters it pq rem cov selected) t) := by
  intro iters
  induction iters with
  | zero =>
    intro it pq rem cov selected _ inv
    rw [fixedKLoop_zero]
    exact ⟨rfl, inv.selLt, inv.selNodup, inv.gpSel⟩
  | succ iters ih =>
    intro it pq rem cov selected hle inv
    have hit : it < n := by omega
    obtain ⟨idx, pq', hres, hmem, inv'⟩ := loopInv_step hwf hit inv
    rw [fixedKLoop_succ_some iters selected hres]
    obtain ⟨h1, h2, h3, h4⟩ := ih (it + 1) pq' (rem.erase idx) _ (selected ++ [idx])
      (by omega) inv'
    refine ⟨?_, h2, h3, h4⟩
    rw [h1, List.length_append, List.length_singleton]
    omega

/-- C7: for `1 ≤ k ≤ n` the lazy greedy selection terminates with a list of
exactly `k` pairwise-distinct indices, each within `0..n-1` (the inner loop
always accepts within its fuel bound and the outer loop runs `k` times). -/
theorem termination_and_cardinality (embeddings : List (List ℝ)) (k : ℕ)
    (hk1 : 1 ≤ k) (hk2 : k ≤ embeddings.length) :
    (lazyGreedySelection embeddings k).length = k ∧
    (lazyGreedySelection embeddings k).Nodup ∧
    ∀ x ∈ lazyGreedySelection embeddings k, x < embeddings.length := by
  by_cases hkn : embeddings.length ≤ k
  · rw [lazyGreedySelection]
    simp only [if_pos hkn]
    refine ⟨?_, List.nodup_range _, fun x hx => List.mem_range.mp hx⟩
    rw [List.length_range]
    omega
  · rw [lazyGreedySelection]
    simp only [if_neg hkn]
    have hwf := buildSimilarityMatrix_wf embeddings
    obtain ⟨h1, h2, h3, _⟩ := fixedKLoop_spec hwf k 0 _ _ _ _ (by omega)
      (loopInv_init (buildSimilarityMatrix embeddings) embeddings.length)
    exact ⟨by rw [h1]; simp, h3, h2⟩

theorem termination_and_cardinality_witness :
    (lazyGreedySelection [[(1 : ℝ), 0], [(0 : ℝ), 1]] 1).length = 1 ∧
    (lazyGreedySelection [[(1 : ℝ), 0], [(0 : ℝ), 1]] 1).Nodup ∧
    ∀ x ∈ lazyGreedySelection [[(1 : ℝ), 0], [(0 : ℝ), 1]] 1,
      x < ([[(1 : ℝ), 0], [(0 : ℝ), 1]] : List (List ℝ)).length :=
  termination_and_cardinality [[(1 : ℝ), 0], [(0 : ℝ), 1]] 1 (by norm_num) (by norm_num)

/-! ### The saturation outer loop -/

theorem length_le_of_nodup_lt {l : List ℕ} {n : ℕ} (hnd : l.Nodup) (hlt : ∀ x ∈ l, x < n) :
    l.length ≤ n := by
  have h1 : l.toFinset ⊆ Finset.range n := by
    intro x hx
    rw [List.mem_toFinset] at hx
    exact Finset.mem_range.mpr (hlt x hx)
  have h2 := Finset.card_le_card h1
  rw [Finset.card_range, List.toFinset_card_of_nodup hnd] at h2
  exact h2

theorem satLoop_spec {sim : List (List ℝ)} {n : ℕ} (θ : ℝ) (hwf : SimWF sim n) :
    ∀ (iters it : ℕ) (pq : List Entry) (rem : List ℕ) (cov : List ℝ)
      (selected : List ℕ) (values : List ℝ),
    it + iters ≤ n →
    LoopInv sim n it pq rem cov selected →
    values.length = selected.length →
    (∀ i, i + 1 < values.length → θ ≤ values.getD (i + 1) 0 - values.getD i 0) →
    ∃ selExt valExt stop,
      satLoop sim n θ iters it pq rem cov selected values =
        (selected ++ selExt, values ++ valExt, stop) ∧
      selExt.length = valExt.length ∧
      valExt.length ≤ iters ∧
      (∀ x ∈ selected ++ selExt, x < n) ∧
      (selected ++ selExt).Nodup ∧
      (∀ t, t < (selected ++ selExt).length → gainMaxAt sim n (selected ++ selExt) t) ∧
      (match stop with
       | some tstop =>
           tstop = (values ++ valExt).length ∧ 2 ≤ tstop ∧
           (values ++ valExt).getD (tstop - 1) 0 - (values ++ valExt).getD (tstop - 2) 0 < θ ∧
           ∀ i, i + 2 < tstop →
             θ ≤ (values ++ valExt).getD (i + 1) 0 - (values ++ valExt).getD i 0
       | none =>
           valExt.length = iters ∧
           ∀ i, i + 1 < (values ++ valExt).length →
             θ ≤ (values ++ valExt).getD (i + 1) 0 - (values ++ valExt).getD i 0) := by
  intro iters
  induction iters with
  | zero =>
    intro it pq rem cov selected values _ inv _ hnc
    refine ⟨[], [], none, ?_, rfl, le_rfl, ?_, ?_, ?_, ?_⟩
    · rw [satLoop_zero, List.append_nil, List.append_nil]
    · rw [List.append_nil]
      exact inv.selLt
    · rw [List.append_nil]
      exact inv.selNodup
    · rw [List.append_nil]
      exact inv.gpSel
    · refine ⟨rfl, ?_⟩
      rw [List.append_nil]
      exact hnc
  | succ iters ih =>
    intro it pq rem cov selected values hle inv hvlen hnc
    have hit : it < n := by omega
    obtain ⟨idx, pq', hres, hmem, inv'⟩ := loopInv_step hwf hit inv
    set cov' := updateCoverage cov (sim.getD idx []) with hcov
    set fv := cov'.sum / (n : ℝ) with hfv
    set values' := values ++ [fv] with hval
    have hvlen' : values'.length = values.length + 1 := by
      rw [hval, List.length_append, List.length_singleton]
    have hgetD_last : values'.getD (values'.length - 1) 0 = fv := by
      rw [hvlen', Nat.add_sub_cancel, hval, List.getD_append_right _ _ _ _ le_rfl,
        Nat.sub_self]
      rfl
    have hgetD_lt : ∀ i, i < values.length → values'.getD i 0 = values.getD i 0 := by
      intro i hi
      rw [hval]
      exact List.getD_append _ _ _ _ hi
    rw [satLoop_succ_some iters selected values hres hcov hfv hval]
    by_cases hstop : 2 ≤ values'.length ∧
        values'.getD (values'.length - 1) 0 - values'.getD (values'.length - 2) 0 < θ
    · rw [if_pos hstop]
      refine ⟨[idx], [fv], some values'.length, ?_, rfl, by simp, inv'.selLt, inv'.selNodup,
        inv'.gpSel, ?_, hstop.1, ?_, ?_⟩
      · rw [hval]
      · rw [hval]
      · rw [← hval]
        exact hstop.2
      · intro i hi
        rw [← hval]
        rw [hvlen'] at hi
        have hi1 : i + 1 < values.length := by omega
        rw [hgetD_lt _ hi1, hgetD_lt _ (by omega)]
        exact hnc i hi1
    · rw [if_neg hstop]
      have hnc' : ∀ i, i + 1 < values'.length →
          θ ≤ values'.getD (i + 1) 0 - values'.getD i 0 := by
        intro i hi
        rw [hvlen'] at hi
        rcases Nat.lt_or_ge (i + 1) values.length with hi1 | hi1
        · rw [hgetD_lt _ hi1, hgetD_lt _ (by omega)]
          exact hnc i hi1
        · have hieq : i + 1 = values.length := by omega
          have h2 : 2 ≤ values'.length := by omega
          have hdelta : ¬ (values'.getD (values'.length - 1) 0 -
              values'.getD (values'.length - 2) 0 < θ) := fun hc => hstop ⟨h2, hc⟩
          push_neg at hdelta
          have he1 : values'.length - 1 = i + 1 := by omega
          have he2 : values'.length - 2 = i := by omega
          rw [he1, he2] at hdelta
          exact hdelta
      have hvlen2 : values'.length = (selected ++ [idx]).length := by
        rw [hvlen', List.length_append, List.length_singleton, hvlen]
      obtain ⟨selExt', valExt', stop', hEq, hlen, hleiters, hlt, hnd, hgp, hmatch⟩ :=
        ih (it + 1) pq' (rem.erase idx) cov' (selected ++ [idx]) values' (by omega) inv'
          hvlen2 hnc'
      have hsel_assoc : (selected ++ [idx]) ++ selExt' = selected ++ (idx :: selExt') := by
        rw [List.append_assoc, List.singleton_append]
      have hval_assoc : values' ++ valExt' = values ++ (fv :: valExt') := by
        rw [hval, List.append_assoc, List.singleton_append]
      refine ⟨idx :: selExt', fv :: valExt', stop', ?_, ?_, ?_, ?_, ?_, ?_, ?_⟩
      · rw [hEq, hsel_assoc, hval_assoc]
      · rw [List.length_cons, List.length_cons, hlen]
      · rw [List.length_cons]
        omega
      · rw [← hsel_assoc]
        exact hlt
      · rw [← hsel_assoc]
        exact hnd
      · rw [← hsel_assoc]
        exact hgp
      · rcases stop' with _ | tstop
        · obtain ⟨hl1, hl2⟩ := hmatch
          refine ⟨?_, ?_⟩
          · rw [List.length_cons, hl1]
          · rw [← hval_assoc]
            exact hl2
        · obtain ⟨hl1, hl2, hl3, hl4⟩ := hmatch
          refine ⟨?_, hl2, ?_, ?_⟩
          · rw [← hval_assoc]
            exact hl1
          · rw [← hval_assoc]
            exact hl3
          · rw [← hval_assoc]
            exact hl4

theorem gainMaxAt_take {sim : List (List ℝ)} {n : ℕ} {sel : List ℕ} {K t : ℕ}
    (htK : t < K) (hgp : gainMaxAt sim n sel t) : gainMaxAt sim n (sel.take K) t := by
  intro j hj hjt
  have htake : (sel.take K).take t = sel.take t := by
    rw [List.take_take, min_eq_left htK.le]
  have hgetD : (sel.take K).getD t 0 = sel.getD t 0 := by
    rw [List.getD_eq_getElem?_getD, List.getD_eq_getElem?_getD, List.getElem?_take,
      if_pos htK]
  rw [htake] at hjt
  rw [htake, hgetD]
  exact hgp j hj hjt

theorem satSelected_eq (emb : List (List ℝ)) (θ : ℝ) :
    (lazyGreedySelectionWithSaturation emb θ).selected =
      (satRun emb θ).1.take ((satRun emb θ).2.2.getD (satRun emb θ).2.1.length) := rfl

theorem satOptimalK_eq (emb : List (List ℝ)) (θ : ℝ) :
    (lazyGreedySelectionWithSaturation emb θ).optimalK =
      (satRun emb θ).2.2.getD (satRun emb θ).2.1.length := rfl

/-- C2: the saturation run stops at the first acceptance `t ≥ 2` whose
trajectory delta is strictly below the threshold, returning `optimalK = t`;
if no delta ever crosses, `optimalK` is the number of collected values (`n`).
In all cases `1 ≤ optimalK ≤ n`, the returned selection and trajectory both
have length `optimalK`, and every delta strictly before `optimalK` is at
least the threshold. -/
theorem saturation_stopping_rule (embeddings : List (List ℝ)) (θ : ℝ)
    (h0 : embeddings ≠ []) :
    (1 ≤ (lazyGreedySelectionWithSaturation embeddings θ).optimalK ∧
      (lazyGreedySelectionWithSaturation embeddings θ).optimalK ≤ embeddings.length) ∧
    (lazyGreedySelectionWithSaturation embeddings θ).selected.length =
      (lazyGreedySelectionWithSaturation embeddings θ).optimalK ∧
    (lazyGreedySelectionWithSaturation embeddings θ).values.length =
      (lazyGreedySelectionWithSaturation embeddings θ).optimalK ∧
    (∀ i, i + 2 < (lazyGreedySelectionWithSaturation embeddings θ).optimalK →
      θ ≤ (lazyGreedySelectionWithSaturation embeddings θ).values.getD (i + 1) 0 -
        (lazyGreedySelectionWithSaturation embeddings θ).values.getD i 0) ∧
    ((2 ≤ (lazyGreedySelectionWithSaturation embeddings θ).optimalK ∧
      (lazyGreedySelectionWithSaturation embeddings θ).values.getD
        ((lazyGreedySelectionWithSaturation embeddings θ).optimalK - 1) 0 -
      (lazyGreedySelectionWithSaturation embeddings θ).values.getD
        ((lazyGreedySelectionWithSaturation embeddings θ).optimalK - 2) 0 < θ) ∨
     ((lazyGreedySelectionWithSaturation embeddings θ).optimalK = embeddings.length ∧
      ∀ i, i + 1 < embeddings.length →
        θ ≤ (lazyGreedySelectionWithSaturation embeddings θ).values.getD (i + 1) 0 -
          (lazyGreedySelectionWithSaturation embeddings θ).values.getD i 0)) := by
  have hwf := buildSimilarityMatrix_wf embeddings
  have hn0 : 0 < embeddings.length := List.length_pos.mpr h0
  obtain ⟨selExt, valExt, stop, hEq, hlen, hleiters, hlt, hnd, hgp, hmatch⟩ :=
    satLoop_spec θ hwf embeddings.length 0 (initPQ (buildSimilarityMatrix embeddings)
      embeddings.length) (List.range embeddings.length)
      (List.replicate embeddings.length (0 : ℝ)) [] [] (by omega)
      (loopInv_init (buildSimilarityMatrix embeddings) embeddings.length) rfl
      (by intro i hi; simp at hi)
  simp only [List.nil_append] at hEq hmatch hlt hnd
  have hrun : satRun embeddings θ = (selExt, valExt, stop) := by
    rw [satRun_eq, hEq]
  have hvals : (lazyGreedySelectionWithSaturation embeddings θ).values = valExt := by
    rw [satValues_eq, hrun]
  have hK : (lazyGreedySelectionWithSaturation embeddings θ).optimalK =
      stop.getD valExt.length := by
    rw [satOptimalK_eq, hrun]
  have hselres : (lazyGreedySelectionWithSaturation embeddings θ).selected =
      selExt.take (stop.getD valExt.length) := by
    rw [satSelected_eq, hrun]
  have hselN : selExt.length ≤ embeddings.length := length_le_of_nodup_lt hnd hlt
  rcases stop with _ | tstop
  · obtain ⟨hitersEq, hncAll⟩ := hmatch
    have hKval : (lazyGreedySelectionWithSaturation embeddings θ).optimalK =
        valExt.length := by
      rw [hK]
      rfl
    have hsellen : selExt.take valExt.length = selExt := by
      rw [← hlen, List.take_length]
    refine ⟨⟨?_, ?_⟩, ?_, ?_, ?_, Or.inr ⟨?_, ?_⟩⟩
    · rw [hKval, hitersEq]
      omega
    · rw [hKval, hitersEq]
    · rw [hselres, hKval]
      simp only [Option.getD_none]
      rw [hsellen, hlen]
    · rw [hvals, hKval]
    · intro i hi
      rw [hKval] at hi
      rw [hvals]
      exact hncAll i (by omega)
    · rw [hKval, hitersEq]
    · intro i hi
      rw [hvals]
      exact hncAll i (by rw [hitersEq]; exact hi)
  · obtain ⟨htlen, ht2, hdelta, hbefore⟩ := hmatch
    have hKval : (lazyGreedySelectionWithSaturation embeddings θ).optimalK = tstop := by
      rw [hK]
      rfl
    refine ⟨⟨by omega, ?_⟩, ?_, ?_, ?_, Or.inl ⟨by rw [hKval]; exact ht2, ?_⟩⟩
    · rw [hKval, htlen, ← hlen]
      exact hselN
    · rw [hselres, hKval]
      simp only [Option.getD_some]
      rw [htlen, ← hlen, List.take_length, hlen, ← htlen]
    · rw [hvals, hKval, htlen]
    · intro i hi
      rw [hKval] at hi
      rw [hvals]
      exact hbefore i hi
    · rw [hKval, hvals]
      exact hdelta

theorem saturation_stopping_rule_witness :
    (1 ≤ (lazyGreedySelectionWithSaturation [[(1 : ℝ), 0]] (1 / 100)).optimalK ∧
      (lazyGreedySelectionWithSaturation [[(1 : ℝ), 0]] (1 / 100)).optimalK ≤ 1) ∧
    (lazyGreedySelectionWithSaturation [[(1 : ℝ), 0]] (1 / 100)).selected.length =
      (lazyGreedySelectionWithSaturation [[(1 : ℝ), 0]] (1 / 100)).optimalK := by
  have h := saturation_stopping_rule [[(1 : ℝ), 0]] (1 / 100) (by simp)
  exact ⟨h.1, h.2.1⟩

/-- C1: in both selection loops, the item accepted at every iteration has
true facility-location marginal gain, against the coverage of the already
selected prefix, at least as large as the true marginal gain of every other
not-yet-selected item — the lazy queue simulates a naive greedy that
recomputes all remaining gains each iteration. -/
theorem lazy_simulates_naive_greedy (embeddings : List (List ℝ)) (k : ℕ) (θ : ℝ) :
    (k < embeddings.length →
      acceptedGainMaximal embeddings (lazyGreedySelection embeddings k)) ∧
    acceptedGainMaximal embeddings
      ((lazyGreedySelectionWithSaturation embeddings θ).selected) := by
  have hwf := buildSimilarityMatrix_wf embeddings
  constructor
  · intro hk
    unfold acceptedGainMaximal
    rw [lazyGreedySelection]
    simp only [if_neg (not_le_of_lt hk)]
    obtain ⟨_, _, _, hgp⟩ := fixedKLoop_spec hwf k 0 _ _ _ _ (by omega)
      (loopInv_init (buildSimilarityMatrix embeddings) embeddings.length)
    exact hgp
  · obtain ⟨selExt, valExt, stop, hEq, hlen, hleiters, hlt, hnd, hgp, hmatch⟩ :=
      satLoop_spec θ hwf embeddings.length 0 (initPQ (buildSimilarityMatrix embeddings)
        embeddings.length) (List.range embeddings.length)
        (List.replicate embeddings.length (0 : ℝ)) [] [] (by omega)
        (loopInv_init (buildSimilarityMatrix embeddings) embeddings.length) rfl
        (by intro i hi; simp at hi)
    simp only [List.nil_append] at hEq hgp
    have hrun : satRun embeddings θ = (selExt, valExt, stop) := by
      rw [satRun_eq, hEq]
    have hselres : (lazyGreedySelectionWithSaturation embeddings θ).selected =
        selExt.take (stop.getD valExt.length) := by
      rw [satSelected_eq, hrun]
    unfold acceptedGainMaximal
    rw [hselres]
    intro t ht
    rw [List.length_take] at ht
    exact gainMaxAt_take (lt_of_lt_of_le ht (min_le_left _ _))
      (hgp t (lt_of_lt_of_le ht (min_le_right _ _)))

theorem lazy_simulates_naive_greedy_witness :
    (1 < ([[(1 : ℝ), 0], [(0 : ℝ), 1]] : List (List ℝ)).length) ∧
    acceptedGainMaximal [[(1 : ℝ), 0], [(0 : ℝ), 1]]
      (lazyGreedySelection [[(1 : ℝ), 0], [(0 : ℝ), 1]] 1) ∧
    acceptedGainMaximal [[(1 : ℝ), 0], [(0 : ℝ), 1]]
      ((lazyGreedySelectionWithSaturation [[(1 : ℝ), 0], [(0 : ℝ), 1]] (1 / 100)).selected) :=
  ⟨by norm_num,
   (lazy_simulates_naive_greedy [[(1 : ℝ), 0], [(0 : ℝ), 1]] 1 (1 / 100)).1 (by norm_num),
   (lazy_simulates_naive_greedy [[(1 : ℝ), 0], [(0 : ℝ), 1]] 1 (1 / 100)).2⟩

/-! ### Step lemmas for evaluating the loops on concrete inputs -/

theorem innerLoop_step_accept {sim : List (List ℝ)} {it : ℕ} {cov : List ℝ} {rem : List ℕ}
    {fuel : ℕ} {g : ℝ} {i : ℕ} {rest : List Entry} (hf : fuel ≠ 0) (hmem : i ∈ rem) :
    innerLoop sim it cov rem fuel ((g, it, i) :: rest) = some (i, rest) := by
  obtain ⟨f, rfl⟩ := Nat.exists_eq_succ_of_ne_zero hf
  rw [innerLoop_cons, if_neg (not_not_intro hmem), if_pos rfl]

theorem innerLoop_step_stale {sim : List (List ℝ)} {it : ℕ} {cov : List ℝ} {rem : List ℕ}
    {fuel : ℕ} {g : ℝ} {e i : ℕ} {rest : List Entry} (hf : fuel ≠ 0) (hmem : i ∈ rem)
    (he : e ≠ it) :
    innerLoop sim it cov rem fuel ((g, e, i) :: rest) =
      innerLoop sim it cov rem (fuel - 1)
        (sortPQ (rest ++ [(-(computeMarginalGainDiversity i cov sim), it, i)])) := by
  obtain ⟨f, rfl⟩ := Nat.exists_eq_succ_of_ne_zero hf
  rw [innerLoop_cons, if_neg (not_not_intro hmem), if_neg he, Nat.succ_sub_one]

theorem satLoop_step_some {sim : List (List ℝ)} {n : ℕ} {θ : ℝ} {iters it : ℕ}
    {pq : List Entry} {rem : List ℕ} {cov cov' : List ℝ} {bestIdx : ℕ} {pq' : List Entry}
    {fv : ℝ} {values' : List ℝ} {selected : List ℕ} {values : List ℝ} (hi : iters ≠ 0)
    (h : innerLoop sim it cov rem (2 * pq.length + 1) pq = some (bestIdx, pq'))
    (hcov : cov' = updateCoverage cov (sim.getD bestIdx []))
    (hfv : fv = cov'.sum / (n : ℝ))
    (hv : values' = values ++ [fv]) :
    satLoop sim n θ iters it pq rem cov selected values =
      if 2 ≤ values'.length ∧
          values'.getD (values'.length - 1) 0 - values'.getD (values'.length - 2) 0 < θ
      then (selected ++ [bestIdx], values', some values'.length)
      else satLoop sim n θ (iters - 1) (it + 1) pq' (rem.erase bestIdx) cov'
        (selected ++ [bestIdx]) values' := by
  obtain ⟨f, rfl⟩ := Nat.exists_eq_succ_of_ne_zero hi
  rw [Nat.succ_sub_one]
  exact satLoop_succ_some f selected values h hcov hfv hv

/-! ### Concrete evaluation: three identical embeddings `[1,0]` -/

theorem cos_one_zero : cosineSimilarity [(1 : ℝ), 0] [(1 : ℝ), 0] = 1 :=
  cosineSimilarity_self ⟨1, by simp, one_ne_zero⟩

theorem buildMatrix_three :
    buildSimilarityMatrix [[(1 : ℝ), 0], [(1 : ℝ), 0], [(1 : ℝ), 0]] =
      [[1, 1, 1], [1, 1, 1], [1, 1, 1]] := by
  norm_num [buildSimilarityMatrix, List.range_succ, cos_one_zero]

theorem gain_zero_cov_three (i : ℕ) (hi : i < 3) :
    computeMarginalGainDiversity i [(0 : ℝ), 0, 0]
      [[(1 : ℝ), 1, 1], [1, 1, 1], [1, 1, 1]] = 3 := by
  interval_cases i <;>
    norm_num [computeMarginalGainDiversity, List.range_succ]

theorem gain_full_cov_three (i : ℕ) (hi : i < 3) :
    computeMarginalGainDiversity i [(1 : ℝ), 1, 1]
      [[(1 : ℝ), 1, 1], [1, 1, 1], [1, 1, 1]] = 0 := by
  interval_cases i <;>
    norm_num [computeMarginalGainDiversity, List.range_succ]

theorem initPQ_three :
    initPQ [[(1 : ℝ), 1, 1], [1, 1, 1], [1, 1, 1]] 3 =
      [(-3, 0, 0), (-3, 0, 1), (-3, 0, 2)] := by
  have h0 := gain_zero_cov_three 0 (by norm_num)
  have h1 := gain_zero_cov_three 1 (by norm_num)
  have h2 := gain_zero_cov_three 2 (by norm_num)
  rw [initPQ, show List.replicate 3 (0 : ℝ) = [0, 0, 0] from rfl]
  rw [show List.range 3 = [0, 1, 2] from rfl]
  simp only [List.map_cons, List.map_nil, h0, h1, h2]
  norm_num [sortPQ, keyLE]

theorem innerA_three :
    innerLoop [[(1 : ℝ), 1, 1], [1, 1, 1], [1, 1, 1]] 0 [(0 : ℝ), 0, 0] [0, 1, 2] 7
      [(-3, 0, 0), (-3, 0, 1), (-3, 0, 2)] = some (0, [(-3, 0, 1), (-3, 0, 2)]) :=
  innerLoop_step_accept (by norm_num) (by simp)

theorem innerB_three :
    innerLoop [[(1 : ℝ), 1, 1], [1, 1, 1], [1, 1, 1]] 1 [(1 : ℝ), 1, 1] [1, 2] 5
      [(-3, 0, 1), (-3, 0, 2)] = some (1, [(0, 1, 2)]) := by
  rw [innerLoop_step_stale (by norm_num) (by simp) (by norm_num),
    gain_full_cov_three 1 (by norm_num)]
  norm_num [sortPQ, keyLE, -Prod.mk_one_one]
  rw [innerLoop_step_stale (by norm_num) (by simp) (by norm_num),
    gain_full_cov_three 2 (by norm_num)]
  norm_num [sortPQ, keyLE, -Prod.mk_one_one]
  rw [innerLoop_step_accept (by norm_num) (by simp)]

theorem satRun_three :
    satRun [[(1 : ℝ), 0], [(1 : ℝ), 0], [(1 : ℝ), 0]] (1 / 100) =
      ([0, 1], [1, 1], some 2) := by
  rw [satRun_eq, buildMatrix_three,
    show ([[(1 : ℝ), 0], [(1 : ℝ), 0], [(1 : ℝ), 0]] : List (List ℝ)).length = 3 from rfl,
    initPQ_three, show List.range 3 = [0, 1, 2] from rfl,
    show List.replicate 3 (0 : ℝ) = [0, 0, 0] from rfl]
  rw [satLoop_step_some (by norm_num) innerA_three
    (show ([1, 1, 1] : List ℝ) = updateCoverage [0, 0, 0]
      (([[(1 : ℝ), 1, 1], [1, 1, 1], [1, 1, 1]] : List (List ℝ)).getD 0 []) by
        norm_num [updateCoverage])
    (show (1 : ℝ) = ([1, 1, 1] : List ℝ).sum / ((3 : ℕ) : ℝ) by norm_num)
    (show [(1 : ℝ)] = [] ++ [1] by simp)]
  rw [if_neg (by norm_num)]
  norm_num [List.erase_cons]
  rw [satLoop_step_some (by norm_num) innerB_three
    (show ([1, 1, 1] : List ℝ) = updateCoverage [1, 1, 1]
      (([[(1 : ℝ), 1, 1], [1, 1, 1], [1, 1, 1]] : List (List ℝ)).getD 1 []) by
        norm_num [updateCoverage])
    (show (1 : ℝ) = ([1, 1, 1] : List ℝ).sum / ((3 : ℕ) : ℝ) by norm_num)
    (show [(1 : ℝ), 1] = [1] ++ [1] by simp)]
  rw [if_pos (by norm_num)]
  norm_num

theorem satResult_three :
    lazyGreedySelectionWithSaturation [[(1 : ℝ), 0], [(1 : ℝ), 0], [(1 : ℝ), 0]]
      (1 / 100) = ⟨[0, 1], 2, [1, 1]⟩ := by
  rw [lazyGreedySelectionWithSaturation, satRun_three]
  rfl

/-- C3 counterexample: for the three identical embeddings `[1,0]` under the
default threshold, the code returns `optimalK = 2`, not `1`: the early-stop
check requires two collected trajectory values, so the first acceptance can
never set it. -/
theorem scenarioB_counterexample :
    ¬ (lazyGreedySelectionWithSaturation
        [[(1 : ℝ), 0], [(1 : ℝ), 0], [(1 : ℝ), 0]] (1 / 100)).optimalK = 1 := by
  rw [satResult_three]
  norm_num

/-- C3 (amended): for embeddings `[[1,0],[1,0],[1,0]]` under the default
threshold, the trajectory value after the first selection already equals 1.0,
the second selection adds zero gain (the trajectory is `[1, 1]`), and
`lazyGreedySelectionWithSaturation` returns `optimalK = 2` — the earliest
count the early-stop rule can produce, since the delta test needs two
trajectory values. -/
theorem scenarioB_amended :
    (lazyGreedySelectionWithSaturation
      [[(1 : ℝ), 0], [(1 : ℝ), 0], [(1 : ℝ), 0]] (1 / 100)).values.getD 0 0 = 1 ∧
    (lazyGreedySelectionWithSaturation
      [[(1 : ℝ), 0], [(1 : ℝ), 0], [(1 : ℝ), 0]] (1 / 100)).values = [1, 1] ∧
    (lazyGreedySelectionWithSaturation
      [[(1 : ℝ), 0], [(1 : ℝ), 0], [(1 : ℝ), 0]] (1 / 100)).optimalK = 2 := by
  rw [satResult_three]
  norm_num

theorem monotone_coverage_witness :
    ([(0 : ℝ)].getD 0 0 ≤ (updateCoverage [(0 : ℝ)] [(1 : ℝ)]).getD 0 0) ∧
    List.Chain' (· ≤ ·) (lazyGreedySelectionWithSaturation
      [[(1 : ℝ), 0], [(1 : ℝ), 0], [(1 : ℝ), 0]] (1 / 100)).values :=
  ⟨(monotone_coverage [(0 : ℝ)] [(1 : ℝ)] (by norm_num)).1 0 (by norm_num),
   (monotone_coverage [] [] (by norm_num)).2
     [[(1 : ℝ), 0], [(1 : ℝ), 0], [(1 : ℝ), 0]] (1 / 100)⟩

theorem similarity_and_trajectory_bounds_witness :
    (0 ≤ (1 : ℝ) ∧ (1 : ℝ) ≤ 1) ∧ (0 ≤ (1 : ℝ) ∧ (1 : ℝ) ≤ 1) ∧
    (0 ≤ (1 : ℝ) ∧ (1 : ℝ) ≤ 1) :=
  ⟨(similarity_and_trajectory_bounds [[(1 : ℝ), 0], [(1 : ℝ), 0], [(1 : ℝ), 0]]).1
      [1, 1, 1] (by rw [buildMatrix_three]; simp) 1 (by simp),
   (similarity_and_trajectory_bounds [[(1 : ℝ), 0], [(1 : ℝ), 0], [(1 : ℝ), 0]]).2.1
      [0] 1 (by
        rw [buildMatrix_three,
          show ([[(1 : ℝ), 0], [(1 : ℝ), 0], [(1 : ℝ), 0]] : List (List ℝ)).length = 3
            from rfl]
        norm_num [coverageOf, updateCoverage, List.replicate]),
   (similarity_and_trajectory_bounds [[(1 : ℝ), 0], [(1 : ℝ), 0], [(1 : ℝ), 0]]).2.2
      (1 / 100) 1 (by rw [satValues_eq, satRun_three]; simp)⟩

end JinaMcp
